import Mathlib

/-!
Verification of the meta-collect chat-bot plugin.

This file gives a shallow embedding of the plugin's pure logic:

* `main.py` — keyword search / detail lookup / scheduled "new melon" push:
  the HTTP result handling (`_fetch_json`, `fetch_recent_updates`), the
  group-file matcher (`_find_file_in_group` over CPython `os.path.splitext`
  semantics), message formatting (`format_push_message`, `_format_file_size`),
  the daily scheduler arithmetic (`calculate_sleep_time`) and the timer-task
  control flow (`push_task`, task startup in `initialize`).
* `src/file_ops.py` — the breadth-first walk over a remote group-file tree
  (`get_all_files_with_path`, `get_all_files_recursive_core`).

Python strings are modelled as `List Char` (`Str`), matching Python's
byte/codepoint-exact string equality.  Dictionary `get` with a possibly
missing key is modelled with `Option`.  Python functions that may raise are
modelled with `Option`/explicit outcome types.  The remote backend for the
tree walk is modelled as an inductive tree whose nodes record whether listing
that folder raises, returns a falsy result, or returns files and sub-folders;
the `while` loop over the work queue is modelled by a fuel-indexed recursion
(`walkAux`) whose fuel provably suffices, so that all definitions stay
executable.
-/

abbrev Str := List Char

/-! ### Python string primitives -/

/-- Python `str.split(sep)` for a one-character separator:
`"".split(s) = [""]`, separators delimit (possibly empty) fields. -/
def pySplitChar (sep : Char) : Str → List Str
  | [] => [[]]
  | c :: cs =>
    match pySplitChar sep cs with
    | [] => [[c]]
    | p :: ps => if c = sep then [] :: p :: ps else (c :: p) :: ps

/-- ASCII whitespace recognised by Python `str.strip()`. -/
def isPyWs (c : Char) : Bool :=
  c = ' ' || c = '\t' || c = '\n' || c = '\r' || c = Char.ofNat 11 || c = Char.ofNat 12

/-- Python `str.strip()`: remove leading and trailing whitespace. -/
def pyStrip (s : Str) : Str :=
  ((s.dropWhile isPyWs).reverse.dropWhile isPyWs).reverse

/-- Python `sep.join(parts)`. -/
def pyStrJoin (sep : Str) : List Str → Str
  | [] => []
  | [x] => x
  | x :: xs => x ++ sep ++ pyStrJoin sep xs

/-- Python `int(s)` restricted to plain decimal digit strings; any other
shape (empty string, sign, whitespace, non-digits) raises, modelled `none`. -/
def pyIntOfStr (s : Str) : Option Nat :=
  if s ≠ [] ∧ s.all (fun c => c.isDigit) then
    some (s.foldl (fun a c => a * 10 + (c.toNat - 48)) 0)
  else none

/-- One decimal digit as a character. -/
def digitChar : Nat → Char
  | 0 => '0'
  | 1 => '1'
  | 2 => '2'
  | 3 => '3'
  | 4 => '4'
  | 5 => '5'
  | 6 => '6'
  | 7 => '7'
  | 8 => '8'
  | _ => '9'

/-- Decimal rendering worker; the fuel argument only bounds the number of
digits and is always supplied large enough. -/
def natStrGo : Nat → Nat → Str → Str
  | 0, _, acc => acc
  | fuel + 1, n, acc =>
    if n < 10 then digitChar n :: acc
    else natStrGo fuel (n / 10) (digitChar (n % 10) :: acc)

/-- Decimal rendering of a natural number, as Python's `str`/f-string does. -/
def natStr (n : Nat) : Str := natStrGo (n + 1) n []

/-- Round `num / den` to the nearest integer, ties to even — the rounding
applied by `%.2f` formatting of an exactly representable binary float. -/
def roundHalfEven (num den : Nat) : Nat :=
  let q := num / den
  let r := num % den
  if 2 * r < den then q
  else if den < 2 * r then q + 1
  else if q % 2 = 0 then q else q + 1

/-- Render `n` padded to two digits. -/
def pad2 (n : Nat) : Str := if n < 10 then '0' :: natStr n else natStr n

/-- Render `num / den` with exactly two decimal places (`%.2f`).  For every
byte count a 64-bit float can hold exactly (anything below `2 ^ 53`), the
quotient by a power of two is exact and `%.2f` rounds it half-to-even. -/
def twoDecStr (num den : Nat) : Str :=
  let h := roundHalfEven (num * 100) den
  natStr (h / 100) ++ ('.' :: pad2 (h % 100))

/-! ### `src/file_ops.py` — remote group-file tree walk

`get_all_files_with_path` repeatedly pops a `(folder_id, folder_name,
relative_path)` triple from a FIFO queue, lists that folder through the bot
API, appends every listed file (with `relative_path`, defaulted `size` and
`parent_id` added) to the result, and queues every sub-folder that has a
truthy `folder_id`.  A listing error or falsy listing result abandons just
that folder.  The backend is modelled as an inductive tree: each reachable
folder is a `Node` that either raises on listing (`err`), returns a falsy
result (`falsy`), or returns file records and sub-folder records (`ok`). -/

/-- One file record of a listing result (`file_name`, `file_id`, `size`
keys, any of which a defensive `dict.get` may find missing). -/
structure FileRec where
  file_name : Option Str
  file_id : Option Str
  size : Option Nat
  deriving DecidableEq

/-- One sub-folder record of a listing result. -/
structure FolderRec where
  folder_id : Option Str
  folder_name : Option Str
  deriving DecidableEq

/- The remote tree as seen through `get_group_root_files` /
`get_group_files_by_folder`: listing a folder raises, is falsy, or returns
`files` and `folders` (each folder paired with its own subtree).
`NodeChildren` is the sub-folder list, spelled out so that all recursions
over the tree stay structural (hence executable). -/
mutual
inductive Node where
  | err : Node
  | falsy : Node
  | ok : List FileRec → NodeChildren → Node
inductive NodeChildren where
  | nil : NodeChildren
  | cons : FolderRec → Node → NodeChildren → NodeChildren
end

/-- The sub-folder records of a listing result, as the list the `for` loop
iterates. -/
def childrenList : NodeChildren → List (FolderRec × Node)
  | .nil => []
  | .cons fr n rest => (fr, n) :: childrenList rest

/- Size of a tree: an executable bound on the number of `while` iterations
the walk spends below it. -/
mutual
def nodeSize : Node → Nat
  | .err => 1
  | .falsy => 1
  | .ok _ cs => 1 + childrenSize cs
def childrenSize : NodeChildren → Nat
  | .nil => 1
  | .cons _ n rest => 1 + nodeSize n + childrenSize rest
end

/-- One entry of the `folders_to_scan` work queue, paired with the subtree
the backend will serve for its `folder_id`. -/
structure QEntry where
  folder_id : Option Str
  folder_name : Str
  relative_path : Str
  node : Node

/-- A file entry as produced by `get_all_files_with_path`. -/
structure WalkFile where
  file_name : Option Str
  file_id : Option Str
  size : Nat
  relative_path : Str
  parent_id : Str
  deriving DecidableEq

/-- A file entry as produced by `get_all_files_recursive_core`:
a `WalkFile` plus the derived `parent_folder_name`. -/
structure CoreFile where
  file_name : Option Str
  file_id : Option Str
  size : Nat
  relative_path : Str
  parent_id : Str
  parent_folder_name : Str
  deriving DecidableEq

/-- POSIX `os.path.join(a, b)`: `b` absolute replaces `a`; otherwise a `/`
is inserted unless `a` is empty or already ends with `/`. -/
def pyJoin (a b : Str) : Str :=
  if b.head? = some '/' then b
  else if a = [] ∨ a.getLast? = some '/' then a ++ b
  else a ++ '/' :: b

/-- Python `x or '/'` for the current folder id (falsy id becomes `'/'`). -/
def pyOrSlash : Option Str → Str
  | some s => if s ≠ [] then s else ['/']
  | none => ['/']

/-- The file dict enrichment done for each listed file:
`relative_path = os.path.join(current_relative_path, file_name)`,
`size = size or default 0`, `parent_id = current_folder_id or '/'`. -/
def emitFile (e : QEntry) (f : FileRec) : WalkFile :=
  { file_name := f.file_name
    file_id := f.file_id
    size := f.size.getD 0
    relative_path := pyJoin e.relative_path (f.file_name.getD [])
    parent_id := pyOrSlash e.folder_id }

/-- Queue extension for the sub-folders of a listed folder: only folders
with a truthy `folder_id` are queued (`if folder_id := folder.get('folder_id')`),
with name defaulted to `''` and the extended relative path. -/
def queueChildren (relative_path : Str) (cs : List (FolderRec × Node)) : List QEntry :=
  cs.filterMap (fun c =>
    match c.1.folder_id with
    | some fid =>
      if fid ≠ [] then
        some ⟨some fid, c.1.folder_name.getD [],
          pyJoin relative_path (c.1.folder_name.getD []), c.2⟩
      else none
    | none => none)

/-- The `while folders_to_scan:` loop of `get_all_files_with_path`.  The
fuel argument bounds the number of iterations; `get_all_files_with_path`
supplies a provably sufficient amount, keeping the definition executable. -/
def walkAux : Nat → List QEntry → List WalkFile
  | 0, _ => []
  | _ + 1, [] => []
  | fuel + 1, e :: rest =>
    match e.node with
    | .err => walkAux fuel rest
    | .falsy => walkAux fuel rest
    | .ok files cs =>
      files.map (emitFile e) ++
        walkAux fuel (rest ++ queueChildren e.relative_path (childrenList cs))

/-- The initial queue entry `(None, "根目录", "")`. -/
def rootQEntry (root : Node) : QEntry := ⟨none, ("根目录").data, [], root⟩

/-- `get_all_files_with_path(group_id, bot)`, with the backend behaviour
given by `root`. -/
def get_all_files_with_path (root : Node) : List WalkFile :=
  walkAux (nodeSize root) [rootQEntry root]

/-- Python `relative_path.split(os.path.sep)` with `'/'` separator. -/
def splitOnSlash : Str → List Str
  | [] => [[]]
  | c :: cs =>
    match splitOnSlash cs with
    | [] => [[c]]
    | p :: ps => if c = '/' then [] :: p :: ps else (c :: p) :: ps

/-- Derivation of `parent_folder_name` from `relative_path`:
everything before the final path segment, or `'根目录'` for a top-level file. -/
def parent_folder_name_of (relative_path : Str) : Str :=
  let path_parts := splitOnSlash relative_path
  if 1 < path_parts.length then pyStrJoin ['/'] path_parts.dropLast
  else ("根目录").data

/-- `get_all_files_recursive_core(group_id, bot)`: the walk result with
`parent_folder_name` filled in for every entry. -/
def get_all_files_recursive_core (root : Node) : List CoreFile :=
  (get_all_files_with_path root).map (fun f =>
    ⟨f.file_name, f.file_id, f.size, f.relative_path, f.parent_id,
      parent_folder_name_of f.relative_path⟩)

/-- Denotational description of the walk used to state its specification:
the files reachable through successfully listed folders, each paired with
the list of folder names on its discovery path.  An `err` or `falsy` folder
contributes nothing; sub-folders without a truthy id are never listed. -/
def reachFilesF : Nat → Node → List (List Str × FileRec)
  | 0, _ => []
  | _ + 1, .err => []
  | _ + 1, .falsy => []
  | fuel + 1, .ok files cs =>
    files.map (fun f => ([], f)) ++
    (childrenList cs).flatMap (fun c =>
      match c.1.folder_id with
      | some fid =>
        if fid ≠ [] then
          (reachFilesF fuel c.2).map (fun df => (c.1.folder_name.getD [] :: df.1, df.2))
        else []
      | none => [])

/-- Fuel-free wrapper for `reachFilesF`. -/
def reachFiles (root : Node) : List (List Str × FileRec) :=
  reachFilesF (nodeSize root) root

/-- Projection of a walk entry to the data the walk specification speaks
about (`parent_id` aside). -/
def projT (o : WalkFile) : Option Str × Option Str × Nat × Str :=
  (o.file_name, o.file_id, o.size, o.relative_path)

/-- Expected projected entry for a reachable file discovered below prefix
path `rpath`. -/
def specTupleFrom (rpath : Str) (df : List Str × FileRec) :
    Option Str × Option Str × Nat × Str :=
  (df.2.file_name, df.2.file_id, df.2.size.getD 0,
    pyJoin (df.1.foldl pyJoin rpath) (df.2.file_name.getD []))

/-- Expected projected output of one queue entry. -/
def qSpec (e : QEntry) : List (Option Str × Option Str × Nat × Str) :=
  (reachFiles e.node).map (specTupleFrom e.relative_path)

/-- Total node size of a queue (the walk's termination measure). -/
def queueMeasure (q : List QEntry) : Nat :=
  (q.map (fun e => nodeSize e.node)).sum

/-- A clean (Python-degenerate-free) name: non-empty and without the path
separator. -/
def cleanStr (s : Str) : Bool := (s != []) && s.all (fun c => c != '/')

/-- All file and folder names in a tree are clean. -/
inductive CleanNode : Node → Prop where
  | err : CleanNode .err
  | falsy : CleanNode .falsy
  | ok (files : List FileRec) (cs : NodeChildren) :
      (∀ f ∈ files, cleanStr (f.file_name.getD []) = true) →
      (∀ c ∈ childrenList cs, cleanStr (c.1.folder_name.getD []) = true) →
      (∀ c ∈ childrenList cs, CleanNode c.2) →
      CleanNode (.ok files cs)

/-! ### `main.py` — HTTP glue, matcher, formatters, scheduler -/

/-- Outcome of one HTTP GET as seen by `_fetch_json`: a transport-level
exception, or a response with a status code and (on 200) a JSON body. -/
inductive HttpOutcome (α : Type) where
  | transportError : HttpOutcome α
  | response : Nat → α → HttpOutcome α

/-- `_fetch_json`: `None` on any exception or non-200 status, otherwise the
decoded body. -/
def _fetch_json {α : Type} : HttpOutcome α → Option α
  | .transportError => none
  | .response status body => if status ≠ 200 then none else some body

/-- One catalog record (melon) as consumed by the push path. -/
structure Melon where
  code : Option Str
  id : Option Str
  title : Option Str
  fileType : Option Str
  updateTime : Option Int
  deriving DecidableEq

/-- The query parameters `fetch_recent_updates` sends (timestamps kept as
instants in microseconds; `strftime` formatting is rendering only). -/
structure UpdateParams where
  updateTimeStart : Int
  updateTimeEnd : Int
  status : Str
  deriving DecidableEq

/-- `fetch_recent_updates(hours)`: computes `start_time = now - timedelta(hours=12)`
(note: the `hours` argument is not used in the window), queries the list
endpoint, and returns `[]` when `_fetch_json` failed or found nothing, else
the data.  Modelled as the pair (parameters sent, list returned), with the
HTTP outcome an input. -/
def fetch_recent_updates (hours : Nat) (nowUs : Int)
    (resp : HttpOutcome (List Melon)) : UpdateParams × List Melon :=
  let start_time : Int := nowUs - 12 * 3600 * 1000000
  let params : UpdateParams := ⟨start_time, nowUs, ("enable").data⟩
  match _fetch_json resp with
  | none => (params, [])
  | some data => (params, data)

/-- `_format_file_size`: unit by powers-of-1024 thresholds, two decimal
places above bytes. -/
def _format_file_size (size_bytes : Nat) : Str :=
  if size_bytes < 1024 then natStr size_bytes ++ (" B").data
  else if size_bytes < 1024 * 1024 then twoDecStr size_bytes 1024 ++ (" KB").data
  else if size_bytes < 1024 * 1024 * 1024 then
    twoDecStr size_bytes (1024 * 1024) ++ (" MB").data
  else twoDecStr size_bytes (1024 * 1024 * 1024) ++ (" GB").data

/-- `_parse_push_times`: split the configured string on `','`, strip each
part, keep the truthy (non-empty) ones. -/
def _parse_push_times (push_times : Str) : List Str :=
  ((pySplitChar ',' push_times).map pyStrip).filter (fun t => t ≠ [])

/-- Task startup in `initialize` (renamed here): when push is enabled and
target groups are configured, one `push_task` is created per parsed push
time; the returned list holds the times a task was started for. -/
def init_push_tasks (push_enabled : Bool) (push_times : Str)
    (push_target_groups : List Str) : List Str :=
  if push_enabled ∧ push_target_groups ≠ [] then _parse_push_times push_times
  else []

/-- What one iteration of the `while True:` body of `push_task` runs into:
the cycle completes, some exception is raised inside it, or an
`asyncio.CancelledError` is delivered at an await point. -/
inductive PushEvent where
  | success : PushEvent
  | failure : PushEvent
  | cancel : PushEvent
  deriving DecidableEq

/-- Observable actions of `push_task`: a completed push cycle, the
fixed-length fallback pause of the generic `except` branch, or leaving the
loop (only the `except asyncio.CancelledError: break` branch). -/
inductive PushAction where
  | pushCycle : PushAction
  | backoff : Nat → PushAction
  | exitLoop : PushAction
  deriving DecidableEq

/-- The `while True: try ... except CancelledError: break except Exception:
sleep(300)` loop of `push_task`, as the action trace it produces on a given
(finite prefix of a) stream of per-iteration events. -/
def push_task : List PushEvent → List PushAction
  | [] => []
  | .cancel :: _ => [.exitLoop]
  | .success :: es => .pushCycle :: push_task es
  | .failure :: es => .backoff 300 :: push_task es

/-- A wall-clock `datetime.datetime` (local time): a day index and the
time-of-day fields `replace` manipulates. -/
structure LocalTime where
  day : Int
  hour : Nat
  minute : Nat
  second : Nat
  micro : Nat
  deriving DecidableEq

/-- Microseconds since the local epoch; `datetime` comparison and
subtraction agree with this for in-range field values. -/
def toMicros (t : LocalTime) : Int :=
  ((t.day * 86400 + t.hour * 3600 + t.minute * 60 + t.second) * 1000000 : Int) + t.micro

/-- Field ranges `datetime` guarantees. -/
def validLocalTime (t : LocalTime) : Prop :=
  t.hour < 24 ∧ t.minute < 60 ∧ t.second < 60 ∧ t.micro < 1000000

instance (t : LocalTime) : Decidable (validLocalTime t) := by
  unfold validLocalTime
  infer_instance

/-- `hour, minute = map(int, target_time.split(":"))`: `none` when the
split does not give exactly two ints (the unpacking or `int()` raises). -/
def parse_target_time (target_time : Str) : Option (Nat × Nat) :=
  match pySplitChar ':' target_time with
  | [hs, ms] =>
    match pyIntOfStr hs, pyIntOfStr ms with
    | some h, some m => some (h, m)
    | _, _ => none
  | _ => none

/-- `calculate_sleep_time(target_time)` at wall-clock time `now`: seconds
until today's `hour:minute` occurrence, rolled forward one day when that
occurrence is not strictly in the future; `none` when parsing or
`now.replace(...)` raises. -/
def calculate_sleep_time (target_time : Str) (now : LocalTime) : Option ℚ :=
  match parse_target_time target_time with
  | none => none
  | some (h, m) =>
    if h ≤ 23 ∧ m ≤ 59 then
      let target : LocalTime := { now with hour := h, minute := m, second := 0, micro := 0 }
      let target := if toMicros target ≤ toMicros now then { target with day := target.day + 1 }
        else target
      some (((toMicros target - toMicros now : Int) : ℚ) / 1000000)
    else none

/-- Modelled from the spec and claim wording: the next occurrence of
`hour:minute` — today's occurrence when strictly in the future, otherwise
the same time tomorrow. -/
def nextOccurrence (now : LocalTime) (h m : Nat) : LocalTime :=
  if toMicros now < toMicros ⟨now.day, h, m, 0, 0⟩ then ⟨now.day, h, m, 0, 0⟩
  else ⟨now.day + 1, h, m, 0, 0⟩

/-- Seconds from `a` to `b`. -/
def secondsBetween (a b : LocalTime) : ℚ :=
  ((toMicros b - toMicros a : Int) : ℚ) / 1000000

/-- Python `s.rfind(c)` restricted to found/not-found (greatest index). -/
def lastIndexOf (c : Char) (s : Str) : Option Nat :=
  (List.range s.length).foldl (fun acc i => if s[i]? = some c then some i else acc) none

/-- CPython `os.path.splitext` (POSIX): split off the suffix starting at
the last `'.'` of the base name, unless every base-name character before
that dot is itself a dot (leading dots are not an extension). -/
def splitext (p : Str) : Str × Str :=
  let sepIndex : Int := match lastIndexOf '/' p with | none => -1 | some i => (i : Int)
  match lastIndexOf '.' p with
  | none => (p, [])
  | some dotIndex =>
    if sepIndex < (dotIndex : Int) then
      let filenameIndex := (sepIndex + 1).toNat
      if ((p.drop filenameIndex).take (dotIndex - filenameIndex)).any (fun ch => ch != '.') then
        (p.take dotIndex, p.drop dotIndex)
      else (p, [])
    else (p, [])

/-- `_find_file_in_group(code, group_files)`: `None` on a falsy list, else
the first entry whose file name with extension stripped equals `code`. -/
def _find_file_in_group (code : Str) (group_files : List CoreFile) : Option CoreFile :=
  if group_files = [] then none
  else group_files.find? (fun fi => (splitext (fi.file_name.getD [])).1 == code)

/-- `EMOJI_MAP.get(file_type, EMOJI_MAP["DEFAULT"])`. -/
def EMOJI_MAP_get (t : Str) : Str :=
  if t = ("IMAGE").data then ("🖼️").data
  else if t = ("VIDEO").data then ("📹").data
  else if t = ("PDF").data then ("📄").data
  else if t = ("ZIP").data then ("📦").data
  else if t = ("BOOK").data then ("📚").data
  else if t = ("TEXT").data then ("📝").data
  else ("📁").data

/-- Python `a or b` on optional strings (a falsy left operand — missing or
empty — yields the right operand). -/
def pyOrStr (a b : Option Str) : Option Str :=
  match a with
  | some s => if s ≠ [] then some s else b
  | none => b

/-- Rendering an optional string into an f-string (`None` prints as such). -/
def pyShowOptStr : Option Str → Str
  | some s => s
  | none => ("None").data

/-- `item.get("code") or item.get("id")` as rendered into the digest line. -/
def melonCid (item : Melon) : Str := pyShowOptStr (pyOrStr item.code item.id)

/-- `item.get("title", "无标题")`. -/
def melonTitle (item : Melon) : Str := item.title.getD ("无标题").data

/-- Glyph for `item.get("fileType", "DEFAULT")`. -/
def melonEmoji (item : Melon) : Str :=
  EMOJI_MAP_get (item.fileType.getD ("DEFAULT").data)

/-- The record's `time_str`: empty for a falsy `updateTime`; otherwise the
result of `datetime.fromtimestamp(updateTime / 1000).strftime("%m-%d %H:%M")`,
modelled by the conversion function `conv` (which returns `none` when the
conversion raises, leaving `time_str` empty). -/
def melonTimeStr (conv : Int → Option Str) (item : Melon) : Str :=
  match item.updateTime with
  | some t => if t ≠ 0 then (conv t).getD [] else []
  | none => []

/-- The numbered per-record digest line. -/
def melonMainLine (i : Nat) (item : Melon) : Str :=
  natStr i ++ (". ").data ++ melonEmoji item ++ (" [").data ++ melonCid item ++
    ("] ").data ++ melonTitle item

/-- The per-record time line. -/
def melonTimeLine (ts : Str) : Str := ("   ⏰ ").data ++ ts

/-- The three header lines of a non-empty digest. -/
def pushHeaderLines (hours count : Nat) : List Str :=
  [("🍉 新瓜速递 🍉").data,
   ("━━━━━━━━━━━━━━━").data,
   ("📊 最近 ").data ++ natStr hours ++ (" 小时更新了 ").data ++ natStr count ++
     (" 个瓜：\n").data]

/-- The three footer lines. -/
def pushFooterLines : List Str :=
  [("\n━━━━━━━━━━━━━━━").data,
   ("💡 输入 /cid [CODE] 查看详情").data,
   ("🔑 如需解压密码请查看公告").data]

/-- The empty-digest message. -/
def noNewMelonsLine (hours : Nat) : Str :=
  ("📢 最近 ").data ++ natStr hours ++ (" 小时没有新瓜更新").data

/-- `format_push_message(melons, hours)`: the accumulation loop of the
source, appending one or two lines per record to `msg_lines` and joining
with newlines. -/
def format_push_message (conv : Int → Option Str) (melons : List Melon) (hours : Nat) : Str :=
  if melons = [] then noNewMelonsLine hours
  else
    let msg_lines := pushHeaderLines hours melons.length
    let msg_lines := (List.enumFrom 1 melons).foldl
      (fun acc p =>
        let time_str := melonTimeStr conv p.2
        let acc := acc ++ [melonMainLine p.1 p.2]
        if time_str ≠ [] then acc ++ [melonTimeLine time_str] else acc)
      msg_lines
    pyStrJoin ['\n'] (msg_lines ++ pushFooterLines)

/-- Modelled from the spec and claim wording: a digest is the header block,
then for each record in input order its numbered line followed by an
optional time line (omitted exactly when the record has no usable converted
timestamp), then the footer block. -/
def format_push_message_spec (conv : Int → Option Str) (melons : List Melon) (hours : Nat) : Str :=
  if melons = [] then noNewMelonsLine hours
  else
    pyStrJoin ['\n']
      (pushHeaderLines hours melons.length ++
        (List.enumFrom 1 melons).flatMap (fun p =>
          melonMainLine p.1 p.2 ::
            (if melonTimeStr conv p.2 ≠ [] then [melonTimeLine (melonTimeStr conv p.2)]
             else [])) ++
        pushFooterLines)

/-! ### Concrete inputs used by witnesses and counterexamples -/

/-- A group-file entry with the given name, as the matcher receives it. -/
def mkCoreFile (nm : Str) : CoreFile :=
  ⟨some nm, none, 0, nm, ['/'], ("根目录").data⟩

/-- Backend tree: root → "Movies" → "2024" containing `a.mp4`. -/
def demoTree : Node :=
  .ok []
    (.cons ⟨some ("f1").data, some ("Movies").data⟩
      (.ok []
        (.cons ⟨some ("f2").data, some ("2024").data⟩
          (.ok [⟨some ("a.mp4").data, some ("id1").data, some 5⟩] .nil)
          .nil))
      .nil)

/-- The entry the walk over `demoTree` produces. -/
def demoCoreFile : CoreFile :=
  ⟨some ("a.mp4").data, some ("id1").data, 5,
    ("Movies/2024/a.mp4").data, ("f2").data, ("Movies/2024").data⟩

/-- Backend tree whose first queued folder raises on listing while a
second folder lists fine. -/
def errDemoTree : Node :=
  .ok []
    (.cons ⟨some ("fa").data, some ("A").data⟩ .err
      (.cons ⟨some ("fb").data, some ("B").data⟩
        (.ok [⟨some ("b.txt").data, some ("id2").data, some 3⟩] .nil)
        .nil))

/-- A `push_times` configuration listing the same time of day twice. -/
def dupPushTimes : Str := ("08:00,08:00").data

/-! ## Theorems -/

/-! ### C1 / C2 — the update-window fetch -/

/-- C1: for every value of the `hours` argument, `fetch_recent_updates`
queries the window from `now` minus exactly 12 hours to `now`; the window
has width 12 hours and is independent of `hours` (and of the response). -/
theorem fetch_recent_updates_window_fixed (hours hours2 : Nat) (nowUs : Int)
    (resp resp2 : HttpOutcome (List Melon)) :
    (fetch_recent_updates hours nowUs resp).1 = (fetch_recent_updates hours2 nowUs resp2).1 ∧
    (fetch_recent_updates hours nowUs resp).1.updateTimeEnd = nowUs ∧
    (fetch_recent_updates hours nowUs resp).1.updateTimeStart = nowUs - 12 * 3600 * 1000000 ∧
    (fetch_recent_updates hours nowUs resp).1.updateTimeEnd -
      (fetch_recent_updates hours nowUs resp).1.updateTimeStart = 12 * 3600 * 1000000 := by
  have key : ∀ (hrs : Nat) (r : HttpOutcome (List Melon)),
      (fetch_recent_updates hrs nowUs r).1 =
        ⟨nowUs - 12 * 3600 * 1000000, nowUs, ("enable").data⟩ := by
    intro hrs r
    unfold fetch_recent_updates
    cases _fetch_json r <;> rfl
  rw [key hours resp, key hours2 resp2]
  exact ⟨rfl, rfl, rfl, by ring⟩

/-- C2 counterexample: a transport error does not yield a value distinct
from the empty list — `fetch_recent_updates` returns `[]` for it, the very
value a successful zero-match fetch returns. -/
theorem fetch_recent_updates_failure_not_distinct :
    (fetch_recent_updates 12 0 HttpOutcome.transportError).2 = ([] : List Melon) ∧
    (fetch_recent_updates 12 0 (HttpOutcome.response 200 [])).2 = ([] : List Melon) :=
  ⟨rfl, rfl⟩

/-- C2 (amended): `_fetch_json` itself yields `None` on a non-200 status or
transport error, distinct from a successful empty body — but
`fetch_recent_updates` collapses that failure to `[]`, so its result never
distinguishes a failed fetch from a zero-match fetch. -/
theorem fetch_json_failure_distinct (s : Nat) (b : List Melon) :
    _fetch_json (HttpOutcome.response 200 b) = some b ∧
    (s ≠ 200 → _fetch_json (HttpOutcome.response s b) = none) ∧
    _fetch_json (HttpOutcome.transportError : HttpOutcome (List Melon)) = none ∧
    (∀ (hours : Nat) (nowUs : Int) (resp : HttpOutcome (List Melon)),
      (fetch_recent_updates hours nowUs resp).2 = (_fetch_json resp).getD []) := by
  refine ⟨by simp [_fetch_json], fun hs => by simp [_fetch_json, hs], rfl, ?_⟩
  intro hours nowUs resp
  unfold fetch_recent_updates
  cases _fetch_json resp <;> rfl

/-- Witness for the amended C2 theorem at status 500. -/
theorem fetch_json_failure_distinct_witness :
    (500 ≠ 200) ∧ _fetch_json (HttpOutcome.response 500 ([] : List Melon)) = none :=
  ⟨by decide, (fetch_json_failure_distinct 500 []).2.1 (by decide)⟩

/-! ### C8 — push-task startup -/

/-- C8 counterexample: with `push_times = "08:00,08:00"`, push enabled and
a target group configured, two tasks are started although only one distinct
time of day is configured. -/
theorem init_push_tasks_dup_counterexample :
    (init_push_tasks true dupPushTimes [("12345").data]).length = 2 ∧
    ((_parse_push_times dupPushTimes).dedup).length = 1 := by decide

/-- C8 (amended): the number of push tasks started equals the number of
parsed (stripped, non-empty) configured time entries counting duplicates;
with push disabled or an empty target-group list no task is started. -/
theorem init_push_tasks_count (push_enabled : Bool) (push_times : Str) (groups : List Str) :
    (init_push_tasks push_enabled push_times groups).length =
      (if push_enabled ∧ groups ≠ [] then (_parse_push_times push_times).length else 0) ∧
    init_push_tasks false push_times groups = [] ∧
    init_push_tasks push_enabled push_times [] = [] := by
  unfold init_push_tasks
  refine ⟨?_, by simp, by simp⟩
  split <;> rfl

/-! ### C9 — scheduler loop persistence -/

/-- C9: the `push_task` loop leaves its `while True` only when a
cancellation is observed; every other per-cycle error is followed by the
fixed 300-second fallback pause after which the loop keeps processing, so
all pre-cancellation cycles (successes and failures alike) are handled. -/
theorem push_task_only_cancel_exits (evs : List PushEvent) :
    (PushAction.exitLoop ∈ push_task evs ↔ PushEvent.cancel ∈ evs) ∧
    (push_task evs).count (PushAction.backoff 300) =
      (evs.takeWhile (fun e => e != PushEvent.cancel)).count PushEvent.failure ∧
    (push_task evs).count PushAction.pushCycle =
      (evs.takeWhile (fun e => e != PushEvent.cancel)).count PushEvent.success := by
  induction evs with
  | nil => exact ⟨by simp [push_task], rfl, rfl⟩
  | cons e es ih =>
    cases e
    · exact ⟨by simp [push_task, ih.1],
        by simp [push_task, List.takeWhile_cons, List.count_cons, ih.2.1],
        by simp [push_task, List.takeWhile_cons, List.count_cons, ih.2.2]⟩
    · exact ⟨by simp [push_task, ih.1],
        by simp [push_task, List.takeWhile_cons, List.count_cons, ih.2.1],
        by simp [push_task, List.takeWhile_cons, List.count_cons, ih.2.2]⟩
    · exact ⟨by simp [push_task],
        by simp [push_task, List.takeWhile_cons, List.count_cons],
        by simp [push_task, List.takeWhile_cons, List.count_cons]⟩

/-! ### C3 — the group-file matcher -/

/-- `find?` returns the head of the filtered list. -/
theorem find_eq_filter_head {α : Type} (p : α → Bool) (l : List α) :
    l.find? p = (l.filter p).head? := by
  induction l with
  | nil => rfl
  | cons a l ih =>
    cases h : p a
    · rw [List.find?_cons_of_neg _ (by simp [h]), List.filter_cons_of_neg (by simp [h]), ih]
    · rw [List.find?_cons_of_pos _ h, List.filter_cons_of_pos h, List.head?_cons]

/-- C3: `_find_file_in_group` returns the first entry (in input order)
whose file name with its extension stripped is byte-exactly equal to the
key, and `None` when the list is empty or has no such entry; in particular
`"X001"` matches `"X001.zip"`, does not match `"X0011.zip"`, and matching
is case-sensitive. -/
theorem find_file_in_group_first_exact (code : Str) (group_files : List CoreFile) :
    _find_file_in_group code group_files =
      (group_files.filter (fun fi => (splitext (fi.file_name.getD [])).1 == code)).head? ∧
    _find_file_in_group (("X001").data) [mkCoreFile (("X001.zip").data)] =
      some (mkCoreFile (("X001.zip").data)) ∧
    _find_file_in_group (("X001").data) [mkCoreFile (("X0011.zip").data)] = none ∧
    _find_file_in_group (("x001").data) [mkCoreFile (("X001.zip").data)] = none ∧
    _find_file_in_group code [] = none := by
  refine ⟨?_, by decide, by decide, by decide, rfl⟩
  unfold _find_file_in_group
  split
  · next h => subst h; rfl
  · exact find_eq_filter_head _ _

/-! ### C4 / C5 — the tree walk -/

/-- Every tree node has positive size. -/
theorem nodeSize_pos (n : Node) : 0 < nodeSize n := by
  cases n <;> simp [nodeSize]

theorem queueMeasure_nil : queueMeasure [] = 0 := rfl

theorem queueMeasure_cons (e : QEntry) (rest : List QEntry) :
    queueMeasure (e :: rest) = nodeSize e.node + queueMeasure rest := by
  simp [queueMeasure]

theorem queueMeasure_append (q₁ q₂ : List QEntry) :
    queueMeasure (q₁ ++ q₂) = queueMeasure q₁ + queueMeasure q₂ := by
  simp [queueMeasure]

/-- A child's subtree is smaller than the whole sub-folder list. -/
theorem mem_childrenList_nodeSize_lt :
    ∀ (cs : NodeChildren) (c : FolderRec × Node), c ∈ childrenList cs →
      nodeSize c.2 < childrenSize cs
  | .nil, c, hc => by simp [childrenList] at hc
  | .cons fr n rest, c, hc => by
    simp only [childrenList, List.mem_cons] at hc
    rcases hc with h | h
    · subst h
      simp [childrenSize]
      omega
    · have := mem_childrenList_nodeSize_lt rest c h
      simp [childrenSize]
      omega

/-- The measure the queued children add is below the sub-folder list's
size. -/
theorem queueMeasure_queueChildren_lt (rp : Str) :
    ∀ cs : NodeChildren,
      queueMeasure (queueChildren rp (childrenList cs)) < childrenSize cs
  | .nil => by simp [childrenList, queueChildren, queueMeasure, childrenSize]
  | .cons fr n rest => by
    have ih := queueMeasure_queueChildren_lt rp rest
    simp only [childrenList, queueChildren, List.filterMap_cons] at ih ⊢
    cases hfid : fr.folder_id with
    | none =>
      dsimp only
      simp only [childrenSize]
      omega
    | some fid =>
      dsimp only
      by_cases hf : fid ≠ []
      · rw [if_pos hf]
        dsimp only
        rw [queueMeasure_cons]
        simp only [childrenSize]
        omega
      · rw [if_neg hf]
        dsimp only
        simp only [childrenSize]
        omega

/-- `reachFilesF` does not depend on the fuel once the fuel dominates the
node size. -/
theorem reachFilesF_eq :
    ∀ (f₁ : Nat) (n : Node) (f₂ : Nat), nodeSize n ≤ f₁ → nodeSize n ≤ f₂ →
      reachFilesF f₁ n = reachFilesF f₂ n := by
  intro f₁
  induction f₁ with
  | zero =>
    intro n f₂ h₁ _
    exact absurd h₁ (by have := nodeSize_pos n; omega)
  | succ f₁ ih =>
    intro n f₂ h₁ h₂
    cases n with
    | err =>
      cases f₂ with
      | zero => exact absurd h₂ (by simp [nodeSize])
      | succ f₂ => rfl
    | falsy =>
      cases f₂ with
      | zero => exact absurd h₂ (by simp [nodeSize])
      | succ f₂ => rfl
    | ok files cs =>
      cases f₂ with
      | zero => exact absurd h₂ (by have := nodeSize_pos (.ok files cs); omega)
      | succ f₂ =>
        have hsz : nodeSize (Node.ok files cs) = 1 + childrenSize cs := rfl
        simp only [reachFilesF]
        congr 1
        rw [List.flatMap, List.flatMap]
        congr 1
        apply List.map_congr_left
        intro c hc
        have hlt := mem_childrenList_nodeSize_lt cs c hc
        cases hcf : c.1.folder_id with
        | none => rfl
        | some fid =>
          dsimp only
          by_cases hf : fid ≠ []
          · rw [if_pos hf, if_pos hf,
              ih c.2 f₂ (by omega) (by omega)]
          · rw [if_neg hf, if_neg hf]

/-- `qSpec` of an entry whose folder raises or lists falsy is empty. -/
theorem qSpec_err (e : QEntry) (h : e.node = .err) : qSpec e = [] := by
  unfold qSpec reachFiles
  rw [h]
  rfl

theorem qSpec_falsy (e : QEntry) (h : e.node = .falsy) : qSpec e = [] := by
  unfold qSpec reachFiles
  rw [h]
  rfl

/-- Decomposition of the expected output at an `ok` entry: its own files'
projections followed by the expected outputs of its queued children. -/
theorem qSpec_ok (e : QEntry) (files : List FileRec) (cs : NodeChildren)
    (h : e.node = .ok files cs) :
    qSpec e = files.map (fun f => projT (emitFile e f)) ++
      (queueChildren e.relative_path (childrenList cs)).flatMap qSpec := by
  have children_part : ∀ (fuel : Nat) (cl : List (FolderRec × Node)),
      (∀ c ∈ cl, nodeSize c.2 ≤ fuel) →
      ((cl.flatMap (fun c =>
          match c.1.folder_id with
          | some fid =>
            if fid ≠ [] then
              (reachFilesF fuel c.2).map (fun df => (c.1.folder_name.getD [] :: df.1, df.2))
            else []
          | none => [])).map (specTupleFrom e.relative_path))
        = (queueChildren e.relative_path cl).flatMap qSpec := by
    intro fuel cl
    induction cl with
    | nil => intro _; rfl
    | cons c cl ih =>
      intro hcl
      rw [List.flatMap_cons, List.map_append, ih (fun x hx => hcl x (List.mem_cons_of_mem _ hx))]
      unfold queueChildren
      rw [List.filterMap_cons]
      cases hcf : c.1.folder_id with
      | none => simp
      | some fid =>
        dsimp only
        by_cases hf : fid ≠ []
        · rw [if_pos hf, if_pos hf, List.flatMap_cons]
          congr 1
          rw [List.map_map]
          have hfeq : reachFilesF fuel c.2 = reachFiles c.2 :=
            reachFilesF_eq fuel c.2 (nodeSize c.2)
              (hcl c (List.mem_cons_self _ _)) le_rfl
          rw [hfeq]
          rfl
        · rw [if_neg hf, if_neg hf]
          simp
  unfold qSpec reachFiles
  rw [h]
  have hsz : nodeSize (Node.ok files cs) = childrenSize cs + 1 := by
    simp [nodeSize]
    omega
  rw [hsz]
  simp only [reachFilesF]
  rw [List.map_append, List.map_map]
  congr 1
  exact children_part (childrenSize cs) (childrenList cs)
    (fun c hc => le_of_lt (mem_childrenList_nodeSize_lt cs c hc))

/-- The walk's output (projected) is a permutation of the expected outputs
of all queued entries, for any fuel dominating the queue measure. -/
theorem walkAux_perm :
    ∀ (fuel : Nat) (q : List QEntry), queueMeasure q ≤ fuel →
      ((walkAux fuel q).map projT).Perm (q.flatMap qSpec) := by
  intro fuel
  induction fuel with
  | zero =>
    intro q hq
    have hq0 : q = [] := by
      cases q with
      | nil => rfl
      | cons e rest =>
        exfalso
        have h1 : 0 < nodeSize e.node := nodeSize_pos _
        have h2 := queueMeasure_cons e rest
        omega
    subst hq0
    simp [walkAux]
  | succ fuel ih =>
    intro q hq
    cases q with
    | nil => simp [walkAux]
    | cons e rest =>
      have hqc := queueMeasure_cons e rest
      have hpos := nodeSize_pos e.node
      cases hnode : e.node with
      | err =>
        simp only [walkAux, hnode]
        rw [List.flatMap_cons, qSpec_err e hnode, List.nil_append]
        exact ih rest (by omega)
      | falsy =>
        simp only [walkAux, hnode]
        rw [List.flatMap_cons, qSpec_falsy e hnode, List.nil_append]
        exact ih rest (by omega)
      | ok files cs =>
        simp only [walkAux, hnode]
        rw [hnode] at hqc
        have hcm := queueMeasure_queueChildren_lt e.relative_path cs
        have hsz : nodeSize (Node.ok files cs) = 1 + childrenSize cs := rfl
        have hrec : queueMeasure (rest ++ queueChildren e.relative_path (childrenList cs)) ≤
            fuel := by
          rw [queueMeasure_append]
          omega
        have h2 := ih _ hrec
        rw [List.flatMap_append] at h2
        rw [List.map_append, List.map_map, List.flatMap_cons,
          qSpec_ok e files cs hnode, List.append_assoc]
        refine (List.Perm.append_left _ h2).trans ?_
        refine List.Perm.append_left _ ?_
        exact List.perm_append_comm

/-- C5: a listing failure on one queued folder only loses that branch: the
walk's output is exactly (up to BFS order) the reachable files of every
successfully listed folder, and concretely a tree whose first folder raises
still yields the files of its sibling. -/
theorem walk_error_isolation :
    (∀ root : Node, ((get_all_files_with_path root).map projT).Perm
      ((reachFiles root).map (specTupleFrom []))) ∧
    (get_all_files_with_path errDemoTree).map (fun o => o.file_name) =
      [some (("b.txt").data)] := by
  constructor
  · intro root
    have hq : queueMeasure [rootQEntry root] = nodeSize root := by
      simp [queueMeasure, rootQEntry]
    have h := walkAux_perm (nodeSize root) [rootQEntry root] (le_of_eq hq)
    simpa [qSpec, rootQEntry, get_all_files_with_path] using h
  · decide

/-- Joining after appending one more part appends one more separator and
the part. -/
theorem pyStrJoin_concat (sep : Str) :
    ∀ (xs : List Str) (x y : Str),
      pyStrJoin sep (x :: (xs ++ [y])) = pyStrJoin sep (x :: xs) ++ sep ++ y
  | [], x, y => rfl
  | z :: zs, x, y => by
    have ih := pyStrJoin_concat sep zs z y
    show x ++ sep ++ pyStrJoin sep (z :: (zs ++ [y])) =
      (x ++ sep ++ pyStrJoin sep (z :: zs)) ++ sep ++ y
    rw [ih]
    simp [List.append_assoc]

theorem cleanStr_ne_nil {s : Str} (h : cleanStr s = true) : s ≠ [] := by
  unfold cleanStr at h
  simp only [Bool.and_eq_true, bne_iff_ne] at h
  exact h.1

theorem cleanStr_no_slash {s : Str} (h : cleanStr s = true) : ∀ c ∈ s, c ≠ '/' := by
  unfold cleanStr at h
  simp only [Bool.and_eq_true, List.all_eq_true, bne_iff_ne] at h
  exact h.2

theorem clean_head_ne {s : Str} (h : cleanStr s = true) : s.head? ≠ some '/' := by
  cases s with
  | nil => simp
  | cons c cs =>
    simp only [List.head?_cons, ne_eq, Option.some.injEq]
    exact cleanStr_no_slash h c (List.mem_cons_self _ _)

theorem clean_getLast_ne {s : Str} (h : cleanStr s = true) : s.getLast? ≠ some '/' := by
  intro hc
  have hmem : '/' ∈ s.getLast? := Option.mem_def.2 hc
  rcases List.mem_getLast?_eq_getLast hmem with ⟨hne, heq⟩
  exact cleanStr_no_slash h '/' (heq ▸ List.getLast_mem hne) rfl

theorem pyStrJoin_slash_ne_nil :
    ∀ (parts : List Str), parts ≠ [] → (∀ p ∈ parts, cleanStr p = true) →
      pyStrJoin ['/'] parts ≠ []
  | [], h, _ => absurd rfl h
  | [p], _, hc => by
    simpa [pyStrJoin] using cleanStr_ne_nil (hc p (by simp))
  | p :: q :: rest, _, _ => by
    show p ++ ['/'] ++ pyStrJoin ['/'] (q :: rest) ≠ []
    simp

theorem pyStrJoin_slash_getLast :
    ∀ (parts : List Str), parts ≠ [] → (∀ p ∈ parts, cleanStr p = true) →
      (pyStrJoin ['/'] parts).getLast? ≠ some '/'
  | [], h, _ => absurd rfl h
  | [p], _, hc => by
    simpa [pyStrJoin] using clean_getLast_ne (hc p (by simp))
  | p :: q :: rest, _, hc => by
    have hrec : ∀ x ∈ q :: rest, cleanStr x = true :=
      fun x hx => hc x (List.mem_cons_of_mem _ hx)
    have ih := pyStrJoin_slash_getLast (q :: rest) (by simp) hrec
    have hne : pyStrJoin ['/'] (q :: rest) ≠ [] :=
      pyStrJoin_slash_ne_nil _ (by simp) hrec
    show (p ++ ['/'] ++ pyStrJoin ['/'] (q :: rest)).getLast? ≠ some '/'
    rw [List.append_assoc,
      List.getLast?_append_of_ne_nil _ (by simp),
      List.getLast?_append_of_ne_nil _ hne]
    exact ih

/-- `os.path.join` on a clean path and a clean component inserts exactly
one separator. -/
theorem pyJoin_parts (dirs : List Str) (b : Str) (hb : cleanStr b = true)
    (hd : ∀ p ∈ dirs, cleanStr p = true) :
    pyJoin (pyStrJoin ['/'] dirs) b = pyStrJoin ['/'] (dirs ++ [b]) := by
  cases dirs with
  | nil =>
    show pyJoin [] b = pyStrJoin ['/'] [b]
    unfold pyJoin
    rw [if_neg (clean_head_ne hb), if_pos (Or.inl rfl)]
    rfl
  | cons x xs =>
    unfold pyJoin
    rw [if_neg (clean_head_ne hb)]
    have h1 : pyStrJoin ['/'] (x :: xs) ≠ [] := pyStrJoin_slash_ne_nil _ (by simp) hd
    have h2 := pyStrJoin_slash_getLast (x :: xs) (by simp) hd
    rw [if_neg (not_or.2 ⟨h1, h2⟩)]
    show pyStrJoin ['/'] (x :: xs) ++ '/' :: b = pyStrJoin ['/'] (x :: (xs ++ [b]))
    rw [pyStrJoin_concat]
    simp [List.append_assoc]

/-- Folding `os.path.join` from the empty root path over clean folder
names produces the separator-joined path. -/
theorem relFold_clean (dirs : List Str) (hd : ∀ p ∈ dirs, cleanStr p = true) :
    dirs.foldl pyJoin [] = pyStrJoin ['/'] dirs := by
  induction dirs using List.reverseRecOn with
  | nil => rfl
  | append_singleton xs x ih =>
    rw [List.foldl_append]
    simp only [List.foldl_cons, List.foldl_nil]
    rw [ih (fun p hp => hd p (by simp [hp]))]
    exact pyJoin_parts xs x (hd x (by simp)) (fun p hp => hd p (by simp [hp]))

theorem splitOnSlash_ne_nil : ∀ s : Str, splitOnSlash s ≠ []
  | [] => by simp [splitOnSlash]
  | c :: cs => by
    unfold splitOnSlash
    cases h : splitOnSlash cs with
    | nil => simp
    | cons p ps => by_cases hc : c = '/' <;> simp [hc]

theorem splitOnSlash_no_slash : ∀ (p : Str), (∀ c ∈ p, c ≠ '/') → splitOnSlash p = [p]
  | [], _ => rfl
  | c :: cs, h => by
    have ih := splitOnSlash_no_slash cs (fun x hx => h x (List.mem_cons_of_mem _ hx))
    rw [splitOnSlash, ih]
    dsimp only
    rw [if_neg (h c (List.mem_cons_self _ _))]

theorem splitOnSlash_append_slash :
    ∀ (p : Str), (∀ c ∈ p, c ≠ '/') → ∀ rest : Str,
      splitOnSlash (p ++ '/' :: rest) = p :: splitOnSlash rest
  | [], _, rest => by
    show splitOnSlash ('/' :: rest) = [] :: splitOnSlash rest
    cases h : splitOnSlash rest with
    | nil => exact absurd h (splitOnSlash_ne_nil rest)
    | cons q qs =>
      rw [splitOnSlash, h]
      dsimp only
      rw [if_pos rfl]
  | c :: p', hp, rest => by
    have ih := splitOnSlash_append_slash p'
      (fun x hx => hp x (List.mem_cons_of_mem _ hx)) rest
    show splitOnSlash (c :: (p' ++ '/' :: rest)) = (c :: p') :: splitOnSlash rest
    rw [splitOnSlash, ih]
    dsimp only
    rw [if_neg (hp c (List.mem_cons_self _ _))]

/-- Splitting a separator-joined list of separator-free parts recovers the
parts. -/
theorem splitOnSlash_join :
    ∀ (parts : List Str), parts ≠ [] → (∀ p ∈ parts, ∀ c ∈ p, c ≠ '/') →
      splitOnSlash (pyStrJoin ['/'] parts) = parts
  | [], h, _ => absurd rfl h
  | [p], _, hc => splitOnSlash_no_slash p (hc p (by simp))
  | p :: q :: rest, _, hc => by
    have ih := splitOnSlash_join (q :: rest) (by simp)
      (fun x hx => hc x (List.mem_cons_of_mem _ hx))
    show splitOnSlash (p ++ ['/'] ++ pyStrJoin ['/'] (q :: rest)) = p :: q :: rest
    rw [List.append_assoc,
      show (['/'] : Str) ++ pyStrJoin ['/'] (q :: rest) =
        '/' :: pyStrJoin ['/'] (q :: rest) from rfl,
      splitOnSlash_append_slash p (hc p (by simp)) _, ih]

/-- Reachable files of a clean tree have clean discovery paths and names. -/
theorem reachF_clean :
    ∀ (fuel : Nat) (n : Node), nodeSize n ≤ fuel → CleanNode n →
      ∀ df ∈ reachFilesF fuel n,
        (∀ d ∈ df.1, cleanStr d = true) ∧ cleanStr (df.2.file_name.getD []) = true := by
  intro fuel
  induction fuel with
  | zero =>
    intro n h
    exact absurd h (by have := nodeSize_pos n; omega)
  | succ fuel ih =>
    intro n hsz hclean df hdf
    cases hclean with
    | err => simp [reachFilesF] at hdf
    | falsy => simp [reachFilesF] at hdf
    | ok files cs hfiles hnames hsub =>
      simp only [reachFilesF, List.mem_append] at hdf
      rcases hdf with h | h
      · rcases List.mem_map.1 h with ⟨f, hf, hdf⟩
        rw [← hdf]
        exact ⟨by simp, hfiles f hf⟩
      · rcases List.mem_flatMap.1 h with ⟨c, hc, hdf⟩
        have hsc : nodeSize c.2 ≤ fuel := by
          have h1 := mem_childrenList_nodeSize_lt cs c hc
          have h2 : nodeSize (Node.ok files cs) = 1 + childrenSize cs := rfl
          omega
        cases hcf : c.1.folder_id with
        | none =>
          rw [hcf] at hdf
          simp at hdf
        | some fid =>
          rw [hcf] at hdf
          dsimp only at hdf
          by_cases hfd : fid ≠ []
          · rw [if_pos hfd] at hdf
            rcases List.mem_map.1 hdf with ⟨df', hdf', heq⟩
            have hih := ih c.2 hsc (hsub c hc) df' hdf'
            rw [← heq]
            refine ⟨?_, hih.2⟩
            intro d hd
            rcases List.mem_cons.1 hd with h1 | h1
            · exact h1 ▸ hnames c hc
            · exact hih.1 d h1
          · rw [if_neg hfd] at hdf
            simp at hdf

/-- C4: every entry of the recursive walk has `relative_path` equal to the
separator-join of the folder names on its discovery path followed by its
file name, and `parent_folder_name` equal to that path without the final
segment — or the root sentinel for a top-level file (clean names assumed,
since `os.path.join` treats empty or separator-bearing names specially). -/
theorem core_relative_path_spec (root : Node) (hclean : CleanNode root) :
    ∀ out ∈ get_all_files_recursive_core root, ∃ df ∈ reachFiles root,
      out.file_name = df.2.file_name ∧
      out.relative_path = pyStrJoin ['/'] (df.1 ++ [df.2.file_name.getD []]) ∧
      out.parent_folder_name =
        (if df.1 = [] then ("根目录").data else pyStrJoin ['/'] df.1) := by
  intro out hout
  rcases List.mem_map.1 hout with ⟨o, ho, hoeq⟩
  have hq : queueMeasure [rootQEntry root] = nodeSize root := by
    simp [queueMeasure, rootQEntry]
  have hperm := walkAux_perm (nodeSize root) [rootQEntry root] (le_of_eq hq)
  have hmem : projT o ∈ [rootQEntry root].flatMap qSpec :=
    hperm.mem_iff.1 (List.mem_map_of_mem projT ho)
  simp only [List.flatMap_cons, List.flatMap_nil, List.append_nil, qSpec, rootQEntry] at hmem
  rcases List.mem_map.1 hmem with ⟨df, hdf, heq⟩
  have hcl := reachF_clean (nodeSize root) root le_rfl hclean df hdf
  simp only [specTupleFrom, projT, Prod.mk.injEq] at heq
  obtain ⟨hname, hid, hsize, hpath⟩ := heq
  have hrel : o.relative_path = pyStrJoin ['/'] (df.1 ++ [df.2.file_name.getD []]) := by
    rw [← hpath, relFold_clean df.1 hcl.1, pyJoin_parts df.1 _ hcl.2 hcl.1]
  have hnoslash : ∀ p ∈ df.1 ++ [df.2.file_name.getD []], ∀ c ∈ p, c ≠ '/' := by
    intro p hp
    rcases List.mem_append.1 hp with h | h
    · exact cleanStr_no_slash (hcl.1 p h)
    · rcases List.mem_singleton.1 h with rfl
      exact cleanStr_no_slash hcl.2
  have hsplit : splitOnSlash o.relative_path = df.1 ++ [df.2.file_name.getD []] := by
    rw [hrel]
    exact splitOnSlash_join _ (by simp) hnoslash
  refine ⟨df, hdf, ?_, ?_, ?_⟩
  · rw [← hoeq]
    exact hname.symm
  · rw [← hoeq]
    exact hrel
  · rw [← hoeq]
    show parent_folder_name_of o.relative_path = _
    unfold parent_folder_name_of
    rw [hsplit]
    cases hd : df.1 with
    | nil => simp
    | cons d ds =>
      rw [if_pos (by simp), if_neg (by simp)]
      rw [List.dropLast_concat]

/-- Witness for C4 on the root → "Movies" → "2024" → `a.mp4` tree. -/
theorem core_relative_path_spec_witness :
    CleanNode demoTree ∧
    (get_all_files_recursive_core demoTree).map
        (fun o => (o.relative_path, o.parent_folder_name)) =
      [(("Movies/2024/a.mp4").data, ("Movies/2024").data)] ∧
    demoCoreFile ∈ get_all_files_recursive_core demoTree ∧
    (∃ df ∈ reachFiles demoTree,
      demoCoreFile.file_name = df.2.file_name ∧
      demoCoreFile.relative_path = pyStrJoin ['/'] (df.1 ++ [df.2.file_name.getD []]) ∧
      demoCoreFile.parent_folder_name =
        (if df.1 = [] then ("根目录").data else pyStrJoin ['/'] df.1)) := by
  have hclean : CleanNode demoTree := by
    apply CleanNode.ok
    · intro f hf
      simp at hf
    · intro c hc
      simp only [demoTree, childrenList, List.mem_cons, List.not_mem_nil, or_false] at hc
      subst hc
      decide
    · intro c hc
      simp only [demoTree, childrenList, List.mem_cons, List.not_mem_nil, or_false] at hc
      subst hc
      apply CleanNode.ok
      · intro f hf
        simp at hf
      · intro c2 hc2
        simp only [childrenList, List.mem_cons, List.not_mem_nil, or_false] at hc2
        subst hc2
        decide
      · intro c2 hc2
        simp only [childrenList, List.mem_cons, List.not_mem_nil, or_false] at hc2
        subst hc2
        apply CleanNode.ok
        · intro f hf
          simp only [List.mem_cons, List.not_mem_nil, or_false] at hf
          subst hf
          decide
        · intro c3 hc3
          simp [childrenList] at hc3
        · intro c3 hc3
          simp [childrenList] at hc3
  exact ⟨hclean, by decide, by decide,
    core_relative_path_spec demoTree hclean demoCoreFile (by decide)⟩

/-! ### C10 — file-size formatting -/

/-- `roundHalfEven num den` is within half a unit of the exact quotient:
`|roundHalfEven num den * den - num| ≤ den / 2`. -/
theorem roundHalfEven_accurate (num den : Nat) (hden : 0 < den) :
    2 * Nat.dist (roundHalfEven num den * den) num ≤ den := by
  have hmod : num % den < den := Nat.mod_lt _ hden
  have hdm : den * (num / den) + num % den = num := Nat.div_add_mod num den
  have e1 : num / den * den = den * (num / den) := Nat.mul_comm _ _
  have e2 : (num / den + 1) * den = den * (num / den) + den := by ring
  simp only [roundHalfEven]
  split_ifs <;>
    [rw [e1]; rw [e2]; rw [e1]; rw [e2]] <;>
    (generalize hgen : den * (num / den) = s at hdm ⊢) <;>
    simp only [Nat.dist] <;> omega

/-- C10: the byte count is rendered with exactly one unit chosen by
powers-of-1024 thresholds — plain bytes below 1024, the count divided by
the unit with two decimal places (nearest hundredth, half-to-even, exact
for any count a 64-bit float represents exactly) above. -/
theorem format_file_size_spec (n : Nat) :
    (n < 1024 → _format_file_size n = natStr n ++ (" B").data) ∧
    (1024 ≤ n → n < 1024 * 1024 → _format_file_size n = twoDecStr n 1024 ++ (" KB").data) ∧
    (1024 * 1024 ≤ n → n < 1024 * 1024 * 1024 →
      _format_file_size n = twoDecStr n (1024 * 1024) ++ (" MB").data) ∧
    (1024 * 1024 * 1024 ≤ n →
      _format_file_size n = twoDecStr n (1024 * 1024 * 1024) ++ (" GB").data) ∧
    (∀ den : Nat, 0 < den →
      2 * Nat.dist (roundHalfEven (n * 100) den * den) (n * 100) ≤ den) := by
  refine ⟨fun h => ?_, fun h h2 => ?_, fun h h2 => ?_, fun h => ?_,
    fun den hden => roundHalfEven_accurate _ _ hden⟩
  · simp [_format_file_size, h]
  · have h3 : ¬ n < 1024 := by omega
    simp [_format_file_size, h2, h3]
  · have h3 : ¬ n < 1024 := by omega
    have h4 : ¬ n < 1024 * 1024 := by omega
    simp [_format_file_size, h2, h3, h4]
  · have h3 : ¬ n < 1024 := by omega
    have h4 : ¬ n < 1024 * 1024 := by omega
    have h5 : ¬ n < 1024 * 1024 * 1024 := by omega
    simp [_format_file_size, h3, h4, h5]

/-- Witness for C10 in the bytes and kilobytes regimes and for the
rounding accuracy bound. -/
theorem format_file_size_spec_witness :
    (500 < 1024 ∧ _format_file_size 500 = natStr 500 ++ (" B").data) ∧
    (1024 ≤ 2048 ∧ 2048 < 1024 * 1024 ∧
      _format_file_size 2048 = twoDecStr 2048 1024 ++ (" KB").data) ∧
    (0 < 1024 ∧ 2 * Nat.dist (roundHalfEven (500 * 100) 1024 * 1024) (500 * 100) ≤ 1024) :=
  ⟨⟨by decide, (format_file_size_spec 500).1 (by decide)⟩,
   ⟨by decide, by decide, (format_file_size_spec 2048).2.1 (by decide) (by decide)⟩,
   ⟨by decide, (format_file_size_spec 500).2.2.2.2 1024 (by decide)⟩⟩

/-! ### C6 — sleep-time computation -/

/-- The chosen next occurrence never lies before `now`, so the sleep
duration is never negative. -/
theorem nextOccurrence_nonneg (now : LocalTime) (h m : Nat) (hv : validLocalTime now) :
    0 ≤ secondsBetween now (nextOccurrence now h m) := by
  obtain ⟨h1, h2, h3, h4⟩ := hv
  have hh : (now.hour : Int) < 24 := by exact_mod_cast h1
  have hm : (now.minute : Int) < 60 := by exact_mod_cast h2
  have hs : (now.second : Int) < 60 := by exact_mod_cast h3
  have hmic : (now.micro : Int) < 1000000 := by exact_mod_cast h4
  unfold secondsBetween nextOccurrence
  split
  · next hlt =>
    apply div_nonneg _ (by norm_num)
    have : (0 : Int) ≤ toMicros ⟨now.day, h, m, 0, 0⟩ - toMicros now := by omega
    exact_mod_cast this
  · next hge =>
    apply div_nonneg _ (by norm_num)
    have key : (0 : Int) ≤ toMicros ⟨now.day + 1, h, m, 0, 0⟩ - toMicros now := by
      unfold toMicros
      have hhn : (0 : Int) ≤ (h : Int) := Int.natCast_nonneg h
      have hmn : (0 : Int) ≤ (m : Int) := Int.natCast_nonneg m
      push_cast
      nlinarith [hh, hm, hs, hmic, hhn, hmn]
    exact_mod_cast key

/-- C6: for a parseable in-range `"HH:MM"` target and an in-range wall
clock, `calculate_sleep_time` returns the seconds until today's occurrence
of that time when it is strictly in the future, otherwise until the same
time tomorrow; the result is never negative.  Invoked at `07:59:00` for
`"08:00"` it returns 60; at `08:00:01` it returns 86399. -/
theorem calculate_sleep_time_spec :
    (∀ (s : Str) (now : LocalTime) (h m : Nat),
      parse_target_time s = some (h, m) → h ≤ 23 → m ≤ 59 → validLocalTime now →
      calculate_sleep_time s now = some (secondsBetween now (nextOccurrence now h m)) ∧
      0 ≤ secondsBetween now (nextOccurrence now h m)) ∧
    calculate_sleep_time (("08:00").data) ⟨0, 7, 59, 0, 0⟩ = some 60 ∧
    calculate_sleep_time (("08:00").data) ⟨0, 8, 0, 1, 0⟩ = some 86399 := by
  have main : ∀ (s : Str) (now : LocalTime) (h m : Nat),
      parse_target_time s = some (h, m) → h ≤ 23 → m ≤ 59 →
      calculate_sleep_time s now = some (secondsBetween now (nextOccurrence now h m)) := by
    intro s now h m hp hh hm
    unfold calculate_sleep_time
    rw [hp]
    dsimp only
    rw [if_pos ⟨hh, hm⟩]
    unfold secondsBetween nextOccurrence
    rcases le_or_lt (toMicros ⟨now.day, h, m, 0, 0⟩) (toMicros now) with hle | hlt
    · rw [if_pos hle, if_neg (not_lt.2 hle)]
    · rw [if_neg (not_le.2 hlt), if_pos hlt]
  refine ⟨fun s now h m hp hh hm hv => ⟨main s now h m hp hh hm, nextOccurrence_nonneg now h m hv⟩,
    ?_, ?_⟩
  · rw [main (("08:00").data) ⟨0, 7, 59, 0, 0⟩ 8 0 (by decide) (by decide) (by decide)]
    have h1 : nextOccurrence ⟨0, 7, 59, 0, 0⟩ 8 0 = ⟨0, 8, 0, 0, 0⟩ := by
      unfold nextOccurrence
      rw [if_pos (by decide)]
    rw [h1]
    unfold secondsBetween toMicros
    norm_num
  · rw [main (("08:00").data) ⟨0, 8, 0, 1, 0⟩ 8 0 (by decide) (by decide) (by decide)]
    have h1 : nextOccurrence ⟨0, 8, 0, 1, 0⟩ 8 0 = ⟨1, 8, 0, 0, 0⟩ := by
      unfold nextOccurrence
      rw [if_neg (by decide)]
      decide
    rw [h1]
    unfold secondsBetween toMicros
    norm_num

/-! ### C7 — digest formatting -/

/-- Every character `digitChar` produces is a decimal digit. -/
theorem digitChar_isDigit (d : Nat) : (digitChar d).isDigit = true := by
  unfold digitChar
  split <;> decide

/-- Characters of a decimal rendering are digits or come from the
accumulator. -/
theorem mem_natStrGo (fuel : Nat) :
    ∀ (n : Nat) (acc : Str) (c : Char), c ∈ natStrGo fuel n acc →
      c.isDigit = true ∨ c ∈ acc := by
  induction fuel with
  | zero => exact fun n acc c hc => Or.inr hc
  | succ fuel ih =>
    intro n acc c hc
    unfold natStrGo at hc
    split at hc
    · rcases List.mem_cons.1 hc with h | h
      · exact Or.inl (h ▸ digitChar_isDigit n)
      · exact Or.inr h
    · rcases ih _ _ _ hc with h | h
      · exact Or.inl h
      · rcases List.mem_cons.1 h with h2 | h2
        · exact Or.inl (h2 ▸ digitChar_isDigit _)
        · exact Or.inr h2

/-- A decimal rendering never contains a newline. -/
theorem newline_not_mem_natStr (n : Nat) : '\n' ∉ natStr n := by
  intro h
  rcases mem_natStrGo _ _ _ _ h with h | h
  · exact absurd h (by decide)
  · exact absurd h (List.not_mem_nil _)

/-- Appending a block per element with a left fold produces the
concatenation of the blocks after the initial lines. -/
theorem foldl_append_blocks {α β : Type} (g : α → List β) (l : List α) :
    ∀ init : List β, l.foldl (fun acc x => acc ++ g x) init = init ++ l.flatMap g := by
  induction l with
  | nil => intro init; simp
  | cons a l ih =>
    intro init
    rw [List.foldl_cons, ih, List.flatMap_cons, List.append_assoc]

/-- C7: the formatted digest agrees with its specification — empty input
produces the single (newline-free) no-updates line for the requested hour
count; non-empty input produces the header block with the total count,
then per record in input order the numbered line with glyph, `code`
falling back to `id` and defaulted title, followed by a time line exactly
when the record has a usable converted timestamp (a failed conversion
silently omits only that line), then the footer block. -/
theorem format_push_message_correct (conv : Int → Option Str) (melons : List Melon)
    (hours : Nat) :
    format_push_message conv melons hours = format_push_message_spec conv melons hours ∧
    (format_push_message conv [] hours).count '\n' = 0 := by
  constructor
  · unfold format_push_message format_push_message_spec
    split
    · rfl
    · dsimp only
      have hbody : (fun (acc : List Str) (p : Nat × Melon) =>
            let time_str := melonTimeStr conv p.2
            let acc2 := acc ++ [melonMainLine p.1 p.2]
            if time_str ≠ [] then acc2 ++ [melonTimeLine time_str] else acc2) =
          (fun acc p => acc ++ (melonMainLine p.1 p.2 ::
            (if melonTimeStr conv p.2 ≠ [] then [melonTimeLine (melonTimeStr conv p.2)]
             else []))) := by
        funext acc p
        dsimp only
        split
        · rw [List.append_assoc]
          rfl
        · simp
      rw [hbody, foldl_append_blocks, List.append_assoc]
  · have he : format_push_message conv [] hours = noNewMelonsLine hours := by
      unfold format_push_message
      rw [if_pos rfl]
    rw [he]
    unfold noNewMelonsLine
    rw [List.count_append, List.count_append]
    rw [List.count_eq_zero.2 (newline_not_mem_natStr hours)]
    decide

/-- Witness for C6 at `"08:00"` and wall-clock `07:59:00`. -/
theorem calculate_sleep_time_spec_witness :
    parse_target_time (("08:00").data) = some (8, 0) ∧
    validLocalTime ⟨0, 7, 59, 0, 0⟩ ∧
    calculate_sleep_time (("08:00").data) ⟨0, 7, 59, 0, 0⟩ =
      some (secondsBetween ⟨0, 7, 59, 0, 0⟩ (nextOccurrence ⟨0, 7, 59, 0, 0⟩ 8 0)) ∧
    0 ≤ secondsBetween ⟨0, 7, 59, 0, 0⟩ (nextOccurrence ⟨0, 7, 59, 0, 0⟩ 8 0) :=
  ⟨by decide, by decide,
    (calculate_sleep_time_spec.1 (("08:00").data) ⟨0, 7, 59, 0, 0⟩ 8 0
      (by decide) (by decide) (by decide) (by decide)).1,
    (calculate_sleep_time_spec.1 (("08:00").data) ⟨0, 7, 59, 0, 0⟩ 8 0
      (by decide) (by decide) (by decide) (by decide)).2⟩
